import Mathlib

/-!
Verification of the placement & label rule engine with suspect-region
rescheduling trigger, together with its rule-storage endpoint
(`pkg/storage/endpoint/rule.go`).

Keys of the durable store and of placement rules are byte sequences
(Go strings / `[]byte`); they are embedded as `List Nat` with the
bytewise lexicographic order.
-/

namespace PDVerify

/-- Byte-sequence keys (Go strings are byte sequences). -/
abbrev Key := List Nat

/-- Bytewise lexicographic strict order on keys. -/
def keyLt : Key → Key → Bool
  | [], [] => false
  | [], _ :: _ => true
  | _ :: _, [] => false
  | a :: as, b :: bs => if a < b then true else if b < a then false else keyLt as bs

/-- Bytewise lexicographic order on keys (reflexive closure of `keyLt`). -/
def keyLe (x y : Key) : Bool := keyLt x y || x == y

theorem keyLt_irrefl (k : Key) : keyLt k k = false := by
  induction k with
  | nil => rfl
  | cons a as ih => simp [keyLt, ih]

theorem keyLt_trans {a b c : Key} (h1 : keyLt a b = true) (h2 : keyLt b c = true) :
    keyLt a c = true := by
  induction a generalizing b c with
  | nil =>
    cases b with
    | nil => simp [keyLt] at h1
    | cons y ys =>
      cases c with
      | nil => simp [keyLt] at h2
      | cons z zs => simp [keyLt]
  | cons x xs ih =>
    cases b with
    | nil => simp [keyLt] at h1
    | cons y ys =>
      cases c with
      | nil => simp [keyLt] at h2
      | cons z zs =>
        simp only [keyLt] at h1 h2 ⊢
        rcases Nat.lt_trichotomy x y with hxy | hxy | hxy
        · rcases Nat.lt_trichotomy y z with hyz | hyz | hyz
          · simp [Nat.lt_trans hxy hyz]
          · subst hyz; simp [hxy]
          · simp [hyz, Nat.lt_asymm hyz] at h2
        · subst hxy
          rcases Nat.lt_trichotomy x z with hxz | hxz | hxz
          · simp [hxz]
          · subst hxz
            simp [Nat.lt_irrefl] at h1 h2 ⊢
            exact ih h1 h2
          · simp [hxz, Nat.lt_asymm hxz] at h2
        · simp [hxy, Nat.lt_asymm hxy] at h1

theorem keyLt_asymm {a b : Key} (h : keyLt a b = true) : keyLt b a = false := by
  by_contra hc
  have hba : keyLt b a = true := by
    cases hb : keyLt b a
    · exact absurd hb hc
    · rfl
  have : keyLt a a = true := keyLt_trans h hba
  rw [keyLt_irrefl] at this
  exact Bool.false_ne_true this

theorem keyLt_append_zero (k : Key) : keyLt k (k ++ [0]) = true := by
  induction k with
  | nil => rfl
  | cons a as ih => simp [keyLt, ih]

/-- There is no key strictly between `a` and `a ++ [0]`: any key strictly
greater than `a` is at least `a ++ [0]` (the byte `0` is minimal). -/
theorem keyLe_append_zero_of_lt {a b : Key} (h : keyLt a b = true) :
    keyLe (a ++ [0]) b = true := by
  induction a generalizing b with
  | nil =>
    cases b with
    | nil => simp [keyLt] at h
    | cons y ys =>
      simp only [List.nil_append, keyLe, keyLt]
      rcases Nat.eq_zero_or_pos y with hy | hy
      · subst hy
        cases ys with
        | nil => simp
        | cons z zs => simp [keyLt]
      · simp [hy]
  | cons x xs ih =>
    cases b with
    | nil => simp [keyLt] at h
    | cons y ys =>
      simp only [keyLt] at h
      by_cases hxy : x < y
      · simp [keyLe, keyLt, hxy]
      · by_cases hyx : y < x
        · simp [hxy, hyx] at h
        · have hxyeq : x = y := Nat.le_antisymm (Nat.le_of_not_lt hyx) (Nat.le_of_not_lt hxy)
          subst hxyeq
          simp only [hxy, if_neg, Nat.lt_irrefl, if_false, ite_self] at h
          have hrec := ih (b := ys) (by simpa using h)
          simp only [keyLe, keyLt, List.cons_append, Nat.lt_irrefl, if_false, ite_self] at hrec ⊢
          rcases Bool.or_eq_true_iff.mp hrec with hlt | heq
          · simp [hlt]
          · simp at heq
            simp [heq]

theorem keyLe_refl (k : Key) : keyLe k k = true := by
  simp [keyLe]

theorem keyLe_of_lt {a b : Key} (h : keyLt a b = true) : keyLe a b = true := by
  simp [keyLe, h]

theorem keyLe_trans {a b c : Key} (h1 : keyLe a b = true) (h2 : keyLe b c = true) :
    keyLe a c = true := by
  rcases Bool.or_eq_true_iff.mp h1 with hl1 | he1
  · rcases Bool.or_eq_true_iff.mp h2 with hl2 | he2
    · exact keyLe_of_lt (keyLt_trans hl1 hl2)
    · simp at he2; subst he2; exact keyLe_of_lt hl1
  · simp at he1; subst he1; exact h2

theorem keyLt_of_le_of_lt {a b c : Key} (h1 : keyLe a b = true) (h2 : keyLt b c = true) :
    keyLt a c = true := by
  rcases Bool.or_eq_true_iff.mp h1 with hl1 | he1
  · exact keyLt_trans hl1 h2
  · simp at he1; subst he1; exact h2

theorem keyLt_of_lt_of_le {a b c : Key} (h1 : keyLt a b = true) (h2 : keyLe b c = true) :
    keyLt a c = true := by
  rcases Bool.or_eq_true_iff.mp h2 with hl2 | he2
  · exact keyLt_trans h1 hl2
  · simp at he2; subst he2; exact h1

theorem keyLe_lt_asymm {a b : Key} (h1 : keyLe a b = true) (h2 : keyLt b a = true) : False := by
  have : keyLt b b = true := keyLt_of_lt_of_le h2 h1
  rw [keyLt_irrefl] at this
  exact Bool.false_ne_true this

/-! ## Placement rule data model

Modelled from the spec: the placement rule engine (`PlacementRuleManager`,
`RegionLabelManager`, `BundleTransactionController`, `SuspectRegionTracker`)
is referenced by the repository's tests but its implementation is not among
the provided sources, so the definitions below follow the spec's data model
(§3) and component design (§4) word for word. -/

/-- Peer roles (§3): Voter, Leader, Follower, Learner. -/
inductive PeerRole where
  | voter
  | leader
  | follower
  | learner
deriving DecidableEq, Repr

/-- Label-constraint operators (§3): In, NotIn, Exists, NotExists. -/
inductive LabelConstraintOp where
  | opIn
  | opNotIn
  | opHas
  | opNotHas
deriving DecidableEq, Repr

/-- A label constraint `{Key, Operator, Values}` (§3). -/
structure LabelConstraint where
  key : String
  op : LabelConstraintOp
  values : List String
deriving DecidableEq, Repr

/-- A placement rule (§3): identified by `(GroupID, ID)`; `endKey = []`
means an unbounded upper end. -/
structure Rule where
  groupID : String
  id : String
  startKey : Key
  endKey : Key
  role : PeerRole
  count : Int
  labelConstraints : List LabelConstraint
  isolationLevel : String
deriving DecidableEq, Repr

/-- A rule group (§3): lower `index` means higher priority. -/
structure RuleGroup where
  id : String
  index : Int
  override : Bool
deriving DecidableEq, Repr

/-- A group bundle (§3): a `RuleGroup` plus its full rules list, the unit
of atomic bulk replacement. -/
structure GroupBundle where
  group : RuleGroup
  rules : List Rule
deriving DecidableEq, Repr

/-- A single incremental batch edit (§3): `{Rule, Action ∈ {Add, Del}}`. -/
inductive RuleOpAction where
  | add
  | del
deriving DecidableEq, Repr

structure RuleOp where
  rule : Rule
  action : RuleOpAction
deriving DecidableEq, Repr

/-- A peer of a region: store and role (§6, glossary). -/
structure Peer where
  storeID : Nat
  role : PeerRole
deriving DecidableEq, Repr

/-- A region as supplied to `FitRegion` (§4.2): its key range and its
current peers. -/
structure RegionInfo where
  startKey : Key
  endKey : Key
  peers : List Peer
deriving DecidableEq, Repr

/-- Errors of the engine (§7 taxonomy). -/
inductive EngineError where
  | notFound
  | validation
deriving DecidableEq, Repr

instance {ε α : Type} [DecidableEq ε] [DecidableEq α] : DecidableEq (Except ε α) := fun x y =>
  match x, y with
  | .ok a, .ok b =>
    if h : a = b then .isTrue (h ▸ rfl) else .isFalse (fun hc => h (Except.ok.inj hc))
  | .ok _, .error _ => .isFalse (fun hc => Except.noConfusion hc)
  | .error _, .ok _ => .isFalse (fun hc => Except.noConfusion hc)
  | .error e, .error f =>
    if h : e = f then .isTrue (h ▸ rfl) else .isFalse (fun hc => h (Except.error.inj hc))

/-- Whether the key ranges `[s1, e1)` and `[s2, e2)` intersect; an empty
end key means an unbounded upper end (§3). -/
def rangesIntersect (s1 e1 s2 e2 : Key) : Bool :=
  (e2 == [] || keyLt s1 e2) && (e1 == [] || keyLt s2 e1)

/-! ## Merge policy (§4.2) -/

/-- Group-bundle priority: ascending `Index`, ties broken by group ID for
determinism (§4.2: groups are ordered by ascending `Index`). -/
def bundlePriorityLE (a b : GroupBundle) : Bool :=
  a.group.index < b.group.index || (a.group.index == b.group.index && a.group.id ≤ b.group.id)

def insertBundleSorted (x : GroupBundle) : List GroupBundle → List GroupBundle
  | [] => [x]
  | y :: ys => if bundlePriorityLE x y then x :: y :: ys else y :: insertBundleSorted x ys

/-- Sort group bundles by ascending `Index` (§4.2). -/
def sortBundles (l : List GroupBundle) : List GroupBundle :=
  l.foldr insertBundleSorted []

/-- Fold one group into the accumulator of rules (§4.2): a non-override
group's rules are unioned in; an override group's rules first evict any
previously accumulated rule whose range intersects the incoming rule's
range, then are added. -/
def applyGroupRules (acc : List Rule) (override : Bool) (rules : List Rule) : List Rule :=
  if override then
    rules.foldl
      (fun a r =>
        a.filter (fun r0 => !rangesIntersect r0.startKey r0.endKey r.startKey r.endKey) ++ [r])
      acc
  else
    acc ++ rules

/-- The authoritative merged rule list (§4.2): groups folded left-to-right
in ascending `Index` order. -/
def mergeGroups (bundles : List GroupBundle) : List Rule :=
  (sortBundles bundles).foldl (fun acc b => applyGroupRules acc b.group.override b.rules) []

/-- The merged rules covering a region's range (§4.2 step 1). -/
def applicableRules (bundles : List GroupBundle) (region : RegionInfo) : List Rule :=
  (mergeGroups bundles).filter
    (fun r => rangesIntersect r.startKey r.endKey region.startKey region.endKey)

/-! ## FitRegion (§4.2) -/

/-- The value a store's label list assigns to a label key (empty when the
key is absent). -/
def labelValue (labels : List (String × String)) (k : String) : String :=
  ((labels.find? (fun p => p.1 == k)).map (fun p => p.2)).getD ""

/-- Whether a store's labels satisfy one label constraint (§3). -/
def checkLabelConstraint (labels : List (String × String)) (c : LabelConstraint) : Bool :=
  match c.op with
  | .opIn => c.values.contains (labelValue labels c.key)
  | .opNotIn => !c.values.contains (labelValue labels c.key)
  | .opHas => (labels.find? (fun p => p.1 == c.key)).isSome
  | .opNotHas => !(labels.find? (fun p => p.1 == c.key)).isSome

/-- Whether a peer can be selected for a rule (§4.2 step 2): its role
matches and its store labels satisfy every label constraint. -/
def peerMatchesRule (storeLabels : Nat → List (String × String)) (r : Rule) (p : Peer) : Bool :=
  (p.role == r.role) && r.labelConstraints.all (checkLabelConstraint (storeLabels p.storeID))

/-- The value of a peer's isolation-level label. -/
def isoValue (storeLabels : Nat → List (String × String)) (isoKey : String) (p : Peer) : String :=
  labelValue (storeLabels p.storeID) isoKey

/-- Pick the best next candidate (§4.2 step 2): peers whose isolation-level
value is not yet used are preferred, ties broken by ascending store ID. -/
def pickBestPeer (storeLabels : Nat → List (String × String)) (isoKey : String)
    (used : List String) (cands : List Peer) : Option Peer :=
  cands.foldl
    (fun best p =>
      match best with
      | none => some p
      | some q =>
        let pp : Nat := if (isoValue storeLabels isoKey p) ∈ used then 1 else 0
        let pq : Nat := if (isoValue storeLabels isoKey q) ∈ used then 1 else 0
        if pp < pq || (pp == pq && p.storeID < q.storeID) then some p else some q)
    none

/-- Greedy selection of up to `n` peers from the candidate pool, preferring
isolation-level diversity, ties by ascending store ID (§4.2 step 2). -/
def selectPeers (storeLabels : Nat → List (String × String)) (isoKey : String) :
    Nat → List String → List Peer → List Peer
  | 0, _, _ => []
  | n + 1, used, cands =>
    match pickBestPeer storeLabels isoKey used cands with
    | none => []
    | some p =>
      p :: selectPeers storeLabels isoKey n (isoValue storeLabels isoKey p :: used) (cands.erase p)

def removePeers (pool sel : List Peer) : List Peer :=
  sel.foldl (fun pl p => pl.erase p) pool

/-- The result of `FitRegion` (§4.2): satisfied rules, unsatisfied rules
with their shortfall, and orphan peers. -/
structure RuleFit where
  satisfied : List Rule
  unsatisfied : List (Rule × Nat)
  orphans : List Peer
deriving DecidableEq, Repr

/-- Process the applicable rules in order against the unmatched peer pool
(§4.2 steps 2–4). -/
def fitRules (storeLabels : Nat → List (String × String)) :
    List Rule → List Peer → RuleFit
  | [], pool => ⟨[], [], pool⟩
  | r :: rest, pool =>
    let sel := selectPeers storeLabels r.isolationLevel r.count.toNat []
      (pool.filter (peerMatchesRule storeLabels r))
    let rec0 := fitRules storeLabels rest (removePeers pool sel)
    if sel.length == r.count.toNat then
      ⟨r :: rec0.satisfied, rec0.unsatisfied, rec0.orphans⟩
    else
      ⟨rec0.satisfied, (r, r.count.toNat - sel.length) :: rec0.unsatisfied, rec0.orphans⟩

/-- `FitRegion` (§4.2): evaluate whether a region's current replica set
satisfies the merged policy covering its range. -/
def fitRegion (storeLabels : Nat → List (String × String)) (bundles : List GroupBundle)
    (region : RegionInfo) : RuleFit :=
  fitRules storeLabels (applicableRules bundles region) region.peers

/-! ## PlacementRuleManager state and operations (§4.2, §4.4) -/

/-- The rule manager's owned state: all rule groups and all rules. -/
structure ManagerState where
  groups : List RuleGroup
  rules : List Rule
deriving DecidableEq, Repr

/-- Rule validation (§4.2 error conditions): `Count ≥ 0` and a well-formed
key range (`StartKey ≤ EndKey` unless the upper end is unbounded). -/
def validRule (r : Rule) : Bool :=
  (0 ≤ r.count) && (r.endKey == [] || keyLe r.startKey r.endKey)

/-- Bundle validation (§4.2, §4.4): every rule valid, every rule's group ID
matching its bundle, no duplicate group ID and no duplicate `(GroupID, ID)`
within the submitted set. -/
def validBundles (B : List GroupBundle) : Prop :=
  (B.map (fun b => b.group.id)).Nodup ∧
  ((B.flatMap (fun b => b.rules)).map (fun r => (r.groupID, r.id))).Nodup ∧
  ∀ b ∈ B, ∀ r ∈ b.rules, r.groupID = b.group.id ∧ validRule r = true

instance (B : List GroupBundle) : Decidable (validBundles B) := by
  unfold validBundles
  infer_instance

/-- The manager state holding exactly the given bundles. -/
def bundlesToState (B : List GroupBundle) : ManagerState :=
  ⟨B.map (fun b => b.group), B.flatMap (fun b => b.rules)⟩

/-- `SetBundles(bundles, fullReplace)` (§4.4): validates every bundle
before any write; with `fullReplace = true` the entire rule/group universe
is replaced, otherwise only the groups present in the input. -/
def setBundles (s : ManagerState) (B : List GroupBundle) (fullReplace : Bool) :
    Except EngineError ManagerState :=
  if validBundles B then
    if fullReplace then
      .ok (bundlesToState B)
    else
      let ids := B.map (fun b => b.group.id)
      .ok ⟨(s.groups.filter (fun g => !ids.contains g.id)) ++ B.map (fun b => b.group),
        (s.rules.filter (fun r => !ids.contains r.groupID)) ++ B.flatMap (fun b => b.rules)⟩
  else
    .error .validation

/-- `GetAllBundles()` (§4.2): every group together with its rules. -/
def getAllBundles (s : ManagerState) : List GroupBundle :=
  s.groups.map (fun g => GroupBundle.mk g (s.rules.filter (fun r => r.groupID == g.id)))

/-- `GetRuleGroup` through the explicit single-item API: a missing group is
a `NotFoundError` surfaced to the caller (§7). -/
def getRuleGroup (s : ManagerState) (gid : String) : Except EngineError RuleGroup :=
  match s.groups.find? (fun g => g.id == gid) with
  | some g => .ok g
  | none => .error .notFound

/-- `DeleteRule` through the explicit single-item API (§4.2 error
conditions): deleting a missing rule is a `NotFoundError`. -/
def deleteRuleSingle (s : ManagerState) (gid rid : String) : Except EngineError ManagerState :=
  if s.rules.any (fun r => r.groupID == gid && r.id == rid) then
    .ok ⟨s.groups, s.rules.filter (fun r => !(r.groupID == gid && r.id == rid))⟩
  else
    .error .notFound

/-- Apply one `RuleOp` (§4.4): `Add` upserts (after validation), `Del` of a
missing rule inside a batch is a silent skip (§4.2, §7). -/
def applyRuleOp (s : ManagerState) (op : RuleOp) : Except EngineError ManagerState :=
  match op.action with
  | .add =>
    if validRule op.rule then
      .ok ⟨s.groups,
        s.rules.filter (fun r0 => !(r0.groupID == op.rule.groupID && r0.id == op.rule.id))
          ++ [op.rule]⟩
    else
      .error .validation
  | .del =>
    .ok ⟨s.groups,
      s.rules.filter (fun r0 => !(r0.groupID == op.rule.groupID && r0.id == op.rule.id))⟩

/-- `ApplyRuleOps(ops)` (§4.4): Add/Del applied one at a time in array
order, atomically as a batch (all-or-nothing via the error monad). -/
def applyRuleOps (s : ManagerState) (ops : List RuleOp) : Except EngineError ManagerState :=
  ops.foldlM applyRuleOp s

/-- The state after deleting rule `(r.groupID, r.id)`. -/
def delRuleState (s : ManagerState) (r : Rule) : ManagerState :=
  ⟨s.groups, s.rules.filter (fun r0 => !(r0.groupID == r.groupID && r0.id == r.id))⟩

/-- `SetRule` (§4.2): validated upsert of a single rule. -/
def setRule (s : ManagerState) (r : Rule) : Except EngineError ManagerState :=
  if validRule r then
    .ok ⟨s.groups,
      s.rules.filter (fun r0 => !(r0.groupID == r.groupID && r0.id == r.id)) ++ [r]⟩
  else
    .error .validation

/-! ## Reserved defaults (§3): materialized at engine initialization. -/

/-- Modelled from the spec: the reserved cluster-wide default group ID
(`placement.DefaultGroupID` in the tests). -/
def defaultGroupID : String := "pd"

/-- Modelled from the spec: the reserved cluster-wide default rule ID
(`placement.DefaultRuleID` in the tests). -/
def defaultRuleID : String := "default"

/-- The reserved cluster-wide default rule (§3): whole key space,
Role=Voter, Count=3. -/
def defaultRule : Rule :=
  ⟨defaultGroupID, defaultRuleID, [], [], .voter, 3, [], ""⟩

/-- The reserved default rule group. -/
def defaultRuleGroup : RuleGroup := ⟨defaultGroupID, 0, false⟩

/-- The engine's state at initialization (§3 invariants): only the two
reserved defaults are ever created implicitly. -/
def initManagerState : ManagerState := ⟨[defaultRuleGroup], [defaultRule]⟩

/-! ## RegionLabelManager (§4.3) -/

structure RegionLabel where
  key : String
  value : String
deriving DecidableEq, Repr

/-- A region label rule (§3): `ID`, labels, rule type, and a data payload
of `[start, end)` key ranges. -/
structure LabelRule where
  id : String
  labels : List RegionLabel
  ruleType : String
  data : List (Key × Key)
deriving DecidableEq, Repr

structure LabelerState where
  labelRules : List LabelRule
deriving DecidableEq, Repr

/-- Modelled from the spec: the system-reserved, keyspace-derived label
rules are identified by this ID namespace (the tests observe the reserved
rule `keyspaces/0`). -/
def reservedLabelIDNamespace : String := "keyspaces/"

/-- Whether a label rule ID is the system-reserved keyspace-derived one
(§3: one system-reserved rule always exists and cannot be deleted). -/
def isReservedLabelRuleID (i : String) : Bool :=
  reservedLabelIDNamespace.data.isPrefixOf i.data

/-- The reserved keyspace-derived label rule, materialized at engine
initialization (§3). -/
def keyspaceLabelRule : LabelRule :=
  ⟨"keyspaces/0", [⟨"id", "0"⟩], "key-range", [([], [])]⟩

/-- The label manager's state at initialization. -/
def initLabelerState : LabelerState := ⟨[keyspaceLabelRule]⟩

/-- `GetLabelRulesByIDs(ids)` (§4.3): returns only existing matches,
silently omitting unknown IDs — not an error. -/
def getLabelRulesByIDs (s : LabelerState) (ids : List String) : List LabelRule :=
  ids.filterMap (fun i => s.labelRules.find? (fun r => r.id == i))

/-- `DeleteLabelRule` (§4.3): the reserved rule is excluded — deleting it
is a no-op success; a missing non-reserved rule is a `NotFoundError` (§7). -/
def deleteLabelRule (s : LabelerState) (i : String) : Except EngineError LabelerState :=
  if isReservedLabelRuleID i then
    .ok s
  else if s.labelRules.any (fun r => r.id == i) then
    .ok ⟨s.labelRules.filter (fun r => !(r.id == i))⟩
  else
    .error .notFound

/-- Upsert one label rule. -/
def upsertLabelRule (rules : List LabelRule) (r : LabelRule) : List LabelRule :=
  rules.filter (fun r0 => !(r0.id == r.id)) ++ [r]

/-- `Patch(setRules, deleteIDs)` (§4.3): all sets and deletes apply
together; the reserved rule is excluded from deletion inside `Patch`. -/
def patchLabelRules (s : LabelerState) (setRules : List LabelRule) (deleteIDs : List String) :
    LabelerState :=
  let afterDel := s.labelRules.filter
    (fun r => !(deleteIDs.contains r.id && !isReservedLabelRuleID r.id))
  ⟨setRules.foldl upsertLabelRule afterDel⟩

/-! ## SuspectRegionTracker (§4.5) -/

/-- A region as known to the external region directory: identifier and key
range (§6). -/
structure RegionT where
  rid : Nat
  startKey : Key
  endKey : Key
deriving DecidableEq, Repr

/-- `Add` one region ID to the suspect set (set membership only, §3). -/
def addSuspect (t : List Nat) (i : Nat) : List Nat :=
  if i ∈ t then t else t ++ [i]

def addSuspects (t : List Nat) (ids : List Nat) : List Nat :=
  ids.foldl addSuspect t

/-- `AccelerateSchedule(range)` (§4.5): resolves the range to overlapping
region IDs via the external region directory and calls `Add`. -/
def accelerateSchedule (regions : List RegionT) (kr : Key × Key) (t : List Nat) : List Nat :=
  addSuspects t
    ((regions.filter (fun reg => rangesIntersect reg.startKey reg.endKey kr.1 kr.2)).map
      (fun reg => reg.rid))

/-- `Drain()` (§4.5): returns and clears all current entries. -/
def drainSuspects (t : List Nat) : List Nat × List Nat := (t, [])

/-! ## Storage endpoint: key paths and single-record save/load
(`pkg/storage/endpoint/rule.go`) -/

/-- The durable store as a key-value association, newest binding first. -/
def saveKV (st : List (String × String)) (k v : String) : List (String × String) :=
  (k, v) :: st.filter (fun p => !(p.1 == k))

def loadKV (st : List (String × String)) (k : String) : Option String :=
  (st.find? (fun p => p.1 == k)).map (fun p => p.2)

/-- Modelled from the spec: the rule records' path component (records live
under `.../rules/{groupID}-{id}`, §6); `rulesPath` itself is referenced by
`rule.go` but defined outside the provided sources. -/
def rulesPath : String := "rules"

/-- Modelled from the spec: the rule-group records' path component
(`.../rule_group/{groupID}`, §6). -/
def ruleGroupPath : String := "rule_group"

/-- Modelled from the spec: the region-label records' path component
(`.../region_label/{id}`, §6). -/
def regionLabelPath : String := "region_label"

/-- Modelled from the spec: the deterministic key-path function used by
both `SaveRuleJSON` and `LoadRule` in `rule.go`. -/
def ruleKeyPath (ruleKey : String) : String := rulesPath ++ "/" ++ ruleKey

/-- Modelled from the spec: the key path of a rule group record. -/
def ruleGroupIDPath (groupID : String) : String := ruleGroupPath ++ "/" ++ groupID

/-- Modelled from the spec: the key path of a region label rule record. -/
def regionLabelKeyPath (ruleKey : String) : String := regionLabelPath ++ "/" ++ ruleKey

/-- `SaveRuleJSON` (`rule.go`): stores a rule cfg JSON under
`ruleKeyPath(ruleKey)`. -/
def SaveRuleJSON (st : List (String × String)) (ruleKey rule : String) :
    List (String × String) :=
  saveKV st (ruleKeyPath ruleKey) rule

/-- `LoadRule` (`rule.go`): loads a placement rule from
`ruleKeyPath(ruleKey)`. -/
def LoadRule (st : List (String × String)) (ruleKey : String) : Option String :=
  loadKV st (ruleKeyPath ruleKey)

/-- `SaveRuleGroupJSON` (`rule.go`): stores a rule group config JSON under
`ruleGroupIDPath(groupID)`. -/
def SaveRuleGroupJSON (st : List (String × String)) (groupID group : String) :
    List (String × String) :=
  saveKV st (ruleGroupIDPath groupID) group

/-- `SaveRegionRuleJSON` (`rule.go`): stores a region rule JSON under
`regionLabelKeyPath(ruleKey)`. -/
def SaveRegionRuleJSON (st : List (String × String)) (ruleKey rule : String) :
    List (String × String) :=
  saveKV st (regionLabelKeyPath ruleKey) rule

/-! ## Storage endpoint: paginated prefix scan (`loadRangeByPrefix`,
`rule.go` lines 107–124)

The durable store is a list of byte-string key-value pairs in strictly
ascending key order; `LoadRange(start, end, limit)` returns at most
`limit` pairs with `start ≤ key < end` (§6). -/

/-- Modelled from the spec: the page size constant referenced by
`loadRangeByPrefix` but defined outside the provided sources (the property
proved below holds for any positive page size; 100 is the deployed value). -/
def MinKVRangeLimit : Nat := 100

/-- `LoadRange(start, end, limit)` of the durable store (§6): at most
`limit` key-value pairs with `start ≤ key < end`, in store (ascending key)
order. -/
def LoadRange (st : List (Key × String)) (start endk : Key) (limit : Nat) :
    List (Key × String) :=
  (st.filter (fun kv => keyLe start kv.1 && keyLt kv.1 endk)).take limit

/-- The pagination loop of `loadRangeByPrefix` (`rule.go`): read a batch of
`MinKVRangeLimit` pairs from `nextKey`, stop at the first short batch,
otherwise advance `nextKey` to the last returned key plus a zero byte.
The loop is bounded by `fuel` iterations; the completeness theorem shows
`st.length + 1` iterations always suffice for a sorted store. -/
def loadPagesFrom (st : List (Key × String)) (endk : Key) :
    Nat → Key → List (Key × String)
  | 0, _ => []
  | fuel + 1, nextKey =>
    let batch := LoadRange st nextKey endk MinKVRangeLimit
    if batch.length < MinKVRangeLimit then
      batch
    else
      match batch.getLast? with
      | none => batch
      | some kv => batch ++ loadPagesFrom st endk fuel (kv.1 ++ [0])

/-- `loadRangeByPrefix(prefix, f)` (`rule.go`): iterate all pairs whose key
has the prefix, invoking the callback with the prefix stripped from the
key. The end key of the scan is `clientv3.GetPrefixRangeEnd(prefix)`, an
external collaborator modelled by the contract `prefix ≤ key < endk ↔ key
has the prefix` hypothesized in the theorems; the returned list is the
sequence of callback invocations `(k, v)`. -/
def loadRangeByPrefixScan (st : List (Key × String)) (pfx endk : Key) :
    List (Key × String) :=
  (loadPagesFrom st endk (st.length + 1) pfx).map (fun kv => (kv.1.drop pfx.length, kv.2))

/-- The byte-string form of the `rules/` record prefix. -/
def rulesBytePrefix : Key := (rulesPath ++ "/").data.map Char.toNat

/-- `LoadRules` (`rule.go`): loads all placement rules, a prefix scan under
`rulesPath + "/"`. -/
def LoadRulesScan (st : List (Key × String)) (endk : Key) : List (Key × String) :=
  loadRangeByPrefixScan st rulesBytePrefix endk

/-! ## Helper lemmas -/

theorem mem_addSuspect {t : List Nat} {a i : Nat} :
    i ∈ addSuspect t a ↔ i ∈ t ∨ i = a := by
  unfold addSuspect
  by_cases h : a ∈ t
  · simp only [if_pos h]
    constructor
    · exact Or.inl
    · rintro (hi | hi)
      · exact hi
      · exact hi ▸ h
  · simp [if_neg h]

theorem mem_addSuspects {ids : List Nat} :
    ∀ {t : List Nat} {i : Nat}, i ∈ addSuspects t ids ↔ i ∈ t ∨ i ∈ ids := by
  induction ids with
  | nil => intro t i; simp [addSuspects]
  | cons a as ih =>
    intro t i
    show i ∈ addSuspects (addSuspect t a) as ↔ _
    rw [ih, mem_addSuspect]
    simp only [List.mem_cons]
    tauto

theorem nodup_addSuspect {t : List Nat} {a : Nat} (h : t.Nodup) : (addSuspect t a).Nodup := by
  unfold addSuspect
  by_cases ha : a ∈ t
  · simpa [if_pos ha]
  · simp [if_neg ha, List.nodup_append, h, ha]

theorem nodup_addSuspects {ids : List Nat} :
    ∀ {t : List Nat}, t.Nodup → (addSuspects t ids).Nodup := by
  induction ids with
  | nil => intro t h; simpa [addSuspects]
  | cons a as ih =>
    intro t h
    simp only [addSuspects, List.foldl_cons]
    exact ih (nodup_addSuspect h)

theorem mem_of_getLast?_eq_some : ∀ {l : List (Key × String)} {a : Key × String},
    l.getLast? = some a → a ∈ l := by
  intro l
  induction l with
  | nil => intro a h; cases h
  | cons x xs ih =>
    intro a h
    cases xs with
    | nil =>
      rw [List.getLast?_singleton] at h
      cases h
      exact List.mem_singleton_self x
    | cons y ys =>
      rw [List.getLast?_cons_cons] at h
      exact List.mem_cons_of_mem x (ih h)

/-- In a store sorted by strictly ascending key, the entries at or past
the last key of the first `n` entries plus a zero byte are exactly the
entries after the first `n`. -/
theorem sorted_take_getLast_filter :
    ∀ {L : List (Key × String)} {n : Nat} {kv : Key × String},
      L.Pairwise (fun a b => keyLt a.1 b.1 = true) →
      (L.take n).getLast? = some kv →
      L.filter (fun x => keyLe (kv.1 ++ [0]) x.1) = L.drop n := by
  intro L
  induction L with
  | nil => intro n kv _ hlast; simp at hlast
  | cons x xs ih =>
    intro n kv hs hlast
    rcases List.pairwise_cons.mp hs with ⟨hx, hxs⟩
    cases n with
    | zero => simp at hlast
    | succ m =>
      rw [List.take_succ_cons] at hlast
      rcases hxs_take : xs.take m with _ | ⟨z, zs⟩
      · rw [hxs_take, List.getLast?_singleton] at hlast
        cases hlast
        rw [List.drop_succ_cons, List.filter_cons]
        have hxlt : keyLt x.1 (x.1 ++ [0]) = true := keyLt_append_zero x.1
        have hxf : keyLe (x.1 ++ [0]) x.1 = false := by
          cases h : keyLe (x.1 ++ [0]) x.1
          · rfl
          · exact (keyLe_lt_asymm h hxlt).elim
        rw [hxf]
        simp only [Bool.false_eq_true, if_false]
        rcases List.take_eq_nil_iff.mp hxs_take with hm | hxs_nil
        · subst hm
          rw [List.drop_zero, List.filter_eq_self]
          intro y hy
          exact keyLe_append_zero_of_lt (hx y hy)
        · subst hxs_nil
          simp
      · have hlast' : (xs.take m).getLast? = some kv := by
          rw [hxs_take] at hlast ⊢
          rw [List.getLast?_cons_cons] at hlast
          exact hlast
        have hkv_xs : kv ∈ xs := List.take_subset m xs (mem_of_getLast?_eq_some hlast')
        have hxltkv : keyLt x.1 kv.1 = true := hx kv hkv_xs
        have hxlt : keyLt x.1 (kv.1 ++ [0]) = true :=
          keyLt_trans hxltkv (keyLt_append_zero kv.1)
        have hxf : keyLe (kv.1 ++ [0]) x.1 = false := by
          cases h : keyLe (kv.1 ++ [0]) x.1
          · rfl
          · exact (keyLe_lt_asymm h hxlt).elim
        rw [List.drop_succ_cons, List.filter_cons, hxf]
        simp only [Bool.false_eq_true, if_false]
        exact ih hxs hlast'

/-- Restricting the scan range's lower bound to a key at least the old one
is a refinement of the old filter. -/
theorem filter_newstart_eq {st : List (Key × String)} {nk endk newk : Key}
    (himp : ∀ kv ∈ st, keyLe newk kv.1 = true → keyLe nk kv.1 = true) :
    st.filter (fun kv => keyLe newk kv.1 && keyLt kv.1 endk) =
      (st.filter (fun kv => keyLe nk kv.1 && keyLt kv.1 endk)).filter
        (fun kv => keyLe newk kv.1) := by
  rw [List.filter_filter]
  refine (List.filter_congr ?_).symm
  intro kv hkv
  cases h1 : keyLe newk kv.1
  · simp
  · simp [himp kv hkv h1]

/-- The pagination loop of `loadRangeByPrefix` visits, in order, exactly
the store entries in `[nextKey, endKey)` whenever the store is sorted and
the fuel covers the needed number of batches. -/
theorem loadPagesFrom_eq {st : List (Key × String)}
    (hs : st.Pairwise (fun a b => keyLt a.1 b.1 = true)) (endk : Key) :
    ∀ (fuel : Nat) (nk : Key),
      (st.filter (fun kv => keyLe nk kv.1 && keyLt kv.1 endk)).length <
        fuel * MinKVRangeLimit →
      loadPagesFrom st endk fuel nk =
        st.filter (fun kv => keyLe nk kv.1 && keyLt kv.1 endk) := by
  intro fuel
  induction fuel with
  | zero => intro nk h; simp at h
  | succ f ih =>
    intro nk hlen
    have hbatch : LoadRange st nk endk MinKVRangeLimit =
        (st.filter (fun kv => keyLe nk kv.1 && keyLt kv.1 endk)).take MinKVRangeLimit := rfl
    show (let batch := LoadRange st nk endk MinKVRangeLimit;
      if batch.length < MinKVRangeLimit then batch
      else match batch.getLast? with
        | none => batch
        | some kv => batch ++ loadPagesFrom st endk f (kv.1 ++ [0])) = _
    rw [hbatch]
    set L := st.filter (fun kv => keyLe nk kv.1 && keyLt kv.1 endk) with hL
    by_cases hshort : (L.take MinKVRangeLimit).length < MinKVRangeLimit
    · simp only [hshort, if_true]
      have : L.length < MinKVRangeLimit := by
        rw [List.length_take] at hshort
        omega
      exact List.take_of_length_le (Nat.le_of_lt this)
    · simp only [hshort, if_false]
      have hlenL : MinKVRangeLimit ≤ L.length := by
        rw [List.length_take] at hshort
        omega
      have hne : L.take MinKVRangeLimit ≠ [] := by
        intro hnil
        rw [hnil] at hshort
        simp [MinKVRangeLimit] at hshort
      obtain ⟨kv, hkv⟩ := Option.isSome_iff_exists.mp (List.getLast?_isSome.mpr hne)
      rw [hkv]
      have hkv_mem : kv ∈ L := List.take_subset _ _ (mem_of_getLast?_eq_some hkv)
      have hkv_bounds := List.mem_filter.mp (hL ▸ hkv_mem)
      have hkv_le : keyLe nk kv.1 = true := by
        have := hkv_bounds.2
        rw [Bool.and_eq_true] at this
        exact this.1
      have himp : ∀ kv0 ∈ st, keyLe (kv.1 ++ [0]) kv0.1 = true → keyLe nk kv0.1 = true := by
        intro kv0 _ hle
        exact keyLe_trans hkv_le
          (keyLe_trans (keyLe_of_lt (keyLt_append_zero kv.1)) hle)
      have hsL : L.Pairwise (fun a b => keyLt a.1 b.1 = true) := List.Pairwise.filter _ hs
      have hdrop := sorted_take_getLast_filter hsL hkv
      have hF : st.filter (fun kv0 => keyLe (kv.1 ++ [0]) kv0.1 && keyLt kv0.1 endk) =
          L.drop MinKVRangeLimit := by
        rw [filter_newstart_eq himp, ← hL, hdrop]
      have hreclen : (st.filter
          (fun kv0 => keyLe (kv.1 ++ [0]) kv0.1 && keyLt kv0.1 endk)).length <
          f * MinKVRangeLimit := by
        rw [hF, List.length_drop]
        have h1 : L.length < (f + 1) * MinKVRangeLimit := hlen
        simp only [MinKVRangeLimit] at h1 hlenL ⊢
        omega
      show List.take MinKVRangeLimit L ++ loadPagesFrom st endk f (kv.1 ++ [0]) = L
      rw [ih (kv.1 ++ [0]) hreclen, hF, List.take_append_drop]

/-! ## Claim theorems -/

/-- Deleting by a rule key different from the reserved default's key keeps
the default rule in the rule list. -/
theorem default_mem_filter_ne {rules : List Rule} (gid rid : String)
    (hmem : defaultRule ∈ rules)
    (hne : ¬(gid = defaultGroupID ∧ rid = defaultRuleID)) :
    defaultRule ∈ rules.filter (fun r0 => !(r0.groupID == gid && r0.id == rid)) := by
  rw [List.mem_filter]
  refine ⟨hmem, ?_⟩
  by_cases hg : defaultRule.groupID = gid
  · by_cases hr : defaultRule.id = rid
    · exact absurd ⟨hg.symm, hr.symm⟩ hne
    · simp [hr]
  · simp [hg]

/-- One non-targeting `RuleOp` keeps the default rule present. -/
theorem default_mem_applyRuleOp {s s' : ManagerState} {op : RuleOp}
    (hmem : defaultRule ∈ s.rules)
    (hne : ¬(op.rule.groupID = defaultGroupID ∧ op.rule.id = defaultRuleID))
    (h : applyRuleOp s op = .ok s') : defaultRule ∈ s'.rules := by
  unfold applyRuleOp at h
  cases hact : op.action with
  | add =>
    rw [hact] at h
    by_cases hv : validRule op.rule = true
    · rw [if_pos hv] at h
      have hs' := Except.ok.inj h
      rw [← hs']
      exact List.mem_append_left _ (default_mem_filter_ne _ _ hmem hne)
    · rw [if_neg hv] at h
      exact Except.noConfusion h
  | del =>
    rw [hact] at h
    have hs' := Except.ok.inj h
    rw [← hs']
    exact default_mem_filter_ne _ _ hmem hne

/-- Claim C3: at engine initialization, before any administrative mutation,
the bundle list contains exactly one bundle, whose ID is the default group
ID, holding exactly one rule with the default rule ID, covering the whole
key space with Role=Voter and Count=3; and the rule persists until
explicitly replaced or deleted: every single-rule mutation, every `RuleOp`
batch, and every partial `SetBundles` that does not target the reserved
identifiers leaves it present. -/
theorem c3_default_rule_at_init :
    getAllBundles initManagerState = [⟨defaultRuleGroup, [defaultRule]⟩] ∧
    defaultRuleGroup.id = defaultGroupID ∧
    defaultRule.groupID = defaultGroupID ∧
    defaultRule.id = defaultRuleID ∧
    defaultRule.startKey = [] ∧
    defaultRule.endKey = [] ∧
    defaultRule.role = PeerRole.voter ∧
    defaultRule.count = 3 ∧
    (∀ (s s' : ManagerState) (r : Rule),
      defaultRule ∈ s.rules → ¬(r.groupID = defaultGroupID ∧ r.id = defaultRuleID) →
      setRule s r = .ok s' → defaultRule ∈ s'.rules) ∧
    (∀ (s s' : ManagerState) (gid rid : String),
      defaultRule ∈ s.rules → ¬(gid = defaultGroupID ∧ rid = defaultRuleID) →
      deleteRuleSingle s gid rid = .ok s' → defaultRule ∈ s'.rules) ∧
    (∀ (s s' : ManagerState) (ops : List RuleOp),
      defaultRule ∈ s.rules →
      (∀ op ∈ ops, ¬(op.rule.groupID = defaultGroupID ∧ op.rule.id = defaultRuleID)) →
      applyRuleOps s ops = .ok s' → defaultRule ∈ s'.rules) ∧
    (∀ (s s' : ManagerState) (B : List GroupBundle),
      defaultRule ∈ s.rules → defaultGroupID ∉ B.map (fun b => b.group.id) →
      setBundles s B false = .ok s' → defaultRule ∈ s'.rules) := by
  refine ⟨by decide, by decide, by decide, by decide, by decide, by decide, by decide, by decide,
    ?_, ?_, ?_, ?_⟩
  · intro s s' r hmem hne hset
    unfold setRule at hset
    by_cases hv : validRule r = true
    · rw [if_pos hv] at hset
      have hs' := Except.ok.inj hset
      rw [← hs']
      exact List.mem_append_left _ (default_mem_filter_ne _ _ hmem hne)
    · rw [if_neg hv] at hset
      exact Except.noConfusion hset
  · intro s s' gid rid hmem hne hdel
    unfold deleteRuleSingle at hdel
    by_cases ha : s.rules.any (fun r => r.groupID == gid && r.id == rid) = true
    · rw [if_pos ha] at hdel
      have hs' := Except.ok.inj hdel
      rw [← hs']
      exact default_mem_filter_ne _ _ hmem hne
    · rw [if_neg ha] at hdel
      exact Except.noConfusion hdel
  · intro s s' ops
    induction ops generalizing s with
    | nil =>
      intro hmem _ hset
      have hs : s = s' := Except.ok.inj hset
      rw [← hs]
      exact hmem
    | cons op ops ih =>
      intro hmem hne hset
      unfold applyRuleOps at hset
      rw [List.foldlM_cons] at hset
      cases hop : applyRuleOp s op with
      | error e =>
        rw [hop] at hset
        exact Except.noConfusion hset
      | ok s1 =>
        rw [hop] at hset
        have hmem1 : defaultRule ∈ s1.rules :=
          default_mem_applyRuleOp hmem (hne op (List.mem_cons_self op ops)) hop
        exact ih s1 hmem1 (fun o ho => hne o (List.mem_cons_of_mem _ ho)) hset
  · intro s s' B hmem hnid hset
    unfold setBundles at hset
    by_cases hv : validBundles B
    · rw [if_pos hv, if_neg Bool.false_ne_true] at hset
      have hs' := Except.ok.inj hset
      rw [← hs']
      refine List.mem_append_left _ ?_
      rw [List.mem_filter]
      refine ⟨hmem, ?_⟩
      cases hc : (B.map (fun b => b.group.id)).contains defaultRule.groupID
      · rfl
      · exact absurd (List.elem_iff.mp hc) hnid
    · rw [if_neg hv] at hset
      exact Except.noConfusion hset

/-- Witness for C3 at concrete inputs: the default rule survives a
non-targeting `setRule`, a non-targeting single delete, a non-targeting
`RuleOp` batch, and a partial `SetBundles` that omits the default group. -/
theorem c3_witness :
    defaultRule ∈ (ManagerState.mk [defaultRuleGroup]
      [defaultRule, ⟨"pd", "test", [], [], .voter, 3, [], ""⟩]).rules ∧
    defaultRule ∈ (ManagerState.mk [defaultRuleGroup] [defaultRule]).rules ∧
    defaultRule ∈ initManagerState.rules ∧
    defaultRule ∈ (ManagerState.mk [defaultRuleGroup, ⟨"tg", 1, false⟩] [defaultRule]).rules :=
  ⟨c3_default_rule_at_init.2.2.2.2.2.2.2.2.1 initManagerState
      (ManagerState.mk [defaultRuleGroup]
        [defaultRule, ⟨"pd", "test", [], [], .voter, 3, [], ""⟩])
      ⟨"pd", "test", [], [], .voter, 3, [], ""⟩ (by decide) (by decide) (by decide),
   c3_default_rule_at_init.2.2.2.2.2.2.2.2.2.1
      (ManagerState.mk [defaultRuleGroup]
        [defaultRule, ⟨"pd", "test", [], [], .voter, 3, [], ""⟩])
      (ManagerState.mk [defaultRuleGroup] [defaultRule])
      "pd" "test" (by decide) (by decide) (by decide),
   c3_default_rule_at_init.2.2.2.2.2.2.2.2.2.2.1 initManagerState initManagerState
      [⟨⟨"pd", "test", [], [], .voter, 3, [], ""⟩, .del⟩] (by decide) (by decide) (by decide),
   c3_default_rule_at_init.2.2.2.2.2.2.2.2.2.2.2 initManagerState
      (ManagerState.mk [defaultRuleGroup, ⟨"tg", 1, false⟩] [defaultRule])
      [⟨⟨"tg", 1, false⟩, []⟩] (by decide) (by decide) (by decide)⟩

/-- Claim C9: `SaveRuleJSON(k, v)` followed by `LoadRule(k)` returns `v`:
both map `k` through the same deterministic key-path function
`ruleKeyPath` before calling the durable store's `Save`/`Load`, and
likewise rule groups and region label rules are stored under their
respective path functions. -/
theorem c9_save_load_roundtrip (st : List (String × String)) (k v g w k2 v2 : String) :
    LoadRule (SaveRuleJSON st k v) k = some v ∧
    loadKV (SaveRuleGroupJSON st g w) (ruleGroupIDPath g) = some w ∧
    loadKV (SaveRegionRuleJSON st k2 v2) (regionLabelKeyPath k2) = some v2 := by
  refine ⟨?_, ?_, ?_⟩ <;>
    simp [LoadRule, SaveRuleJSON, SaveRuleGroupJSON, SaveRegionRuleJSON, loadKV, saveKV,
      List.find?]

/-- Claim C6: applying the same `RuleOp{Action: Del}` twice in succession
never errors and the engine state after the second application equals the
state after the first (deletion of a missing rule inside a batch is a
silent skip). -/
theorem c6_ruleop_del_idempotent (s : ManagerState) (r : Rule) :
    applyRuleOps s [⟨r, .del⟩] = .ok (delRuleState s r) ∧
    applyRuleOps (delRuleState s r) [⟨r, .del⟩] = .ok (delRuleState s r) := by
  constructor
  · rfl
  · simp only [applyRuleOps, List.foldlM, applyRuleOp, delRuleState, List.filter_filter,
      Bool.and_self]
    rfl

/-- Claim C4: `AccelerateSchedule(range)` followed by a drain of the
suspect-region tracker yields exactly the set of region IDs whose key
ranges intersect the range, each ID exactly once, and leaves the tracker
empty. -/
theorem c4_accelerate_drain (regions : List RegionT) (kr : Key × Key) :
    (drainSuspects (accelerateSchedule regions kr [])).1 = accelerateSchedule regions kr [] ∧
    (drainSuspects (accelerateSchedule regions kr [])).2 = [] ∧
    (accelerateSchedule regions kr []).Nodup ∧
    ∀ i, i ∈ accelerateSchedule regions kr [] ↔
      ∃ reg ∈ regions, reg.rid = i ∧
        rangesIntersect reg.startKey reg.endKey kr.1 kr.2 = true := by
  refine ⟨rfl, rfl, nodup_addSuspects (List.nodup_nil), ?_⟩
  intro i
  unfold accelerateSchedule
  rw [mem_addSuspects]
  simp only [List.not_mem_nil, false_or, List.mem_map, List.mem_filter]
  constructor
  · rintro ⟨reg, ⟨hmem, hint⟩, hid⟩
    exact ⟨reg, hmem, hid, hint⟩
  · rintro ⟨reg, hmem, hid, hint⟩
    exact ⟨reg, ⟨hmem, hint⟩, hid⟩

/-- Claim C5: for an identifier not present in the engine, a get or delete
through the explicit single-item API fails with a `NotFoundError`, while
the same missing-item condition inside a bulk `RuleOp` batch is a silent
skip that leaves the state unchanged. -/
theorem c5_notfound_single_vs_bulk_skip (s : ManagerState) (gid : String) (r : Rule)
    (hg : ∀ g ∈ s.groups, g.id ≠ gid)
    (hr : ∀ r0 ∈ s.rules, ¬(r0.groupID = r.groupID ∧ r0.id = r.id)) :
    getRuleGroup s gid = .error .notFound ∧
    deleteRuleSingle s r.groupID r.id = .error .notFound ∧
    applyRuleOps s [⟨r, .del⟩] = .ok s := by
  refine ⟨?_, ?_, ?_⟩
  · unfold getRuleGroup
    have : s.groups.find? (fun g => g.id == gid) = none := by
      rw [List.find?_eq_none]
      intro g hmem
      simp [hg g hmem]
    rw [this]
  · unfold deleteRuleSingle
    have : s.rules.any (fun r0 => r0.groupID == r.groupID && r0.id == r.id) = false := by
      rw [List.any_eq_false]
      intro r0 hmem
      simp only [Bool.and_eq_true, beq_iff_eq]
      exact hr r0 hmem
    rw [this]
    rfl
  · simp only [applyRuleOps, List.foldlM, applyRuleOp]
    have : s.rules.filter (fun r0 => !(r0.groupID == r.groupID && r0.id == r.id)) = s.rules := by
      rw [List.filter_eq_self]
      intro r0 hmem
      simp only [Bool.not_eq_eq_eq_not, Bool.not_true, Bool.and_eq_false_iff]
      have := hr r0 hmem
      by_cases h1 : r0.groupID = r.groupID
      · right
        simp only [beq_eq_false_iff_ne, ne_eq]
        intro h2
        exact this ⟨h1, h2⟩
      · left
        simp [h1]
    rw [this]
    rfl

theorem find?_labelRule_eq_some {l : List LabelRule} {r : LabelRule}
    (hnodup : (l.map (fun r0 => r0.id)).Nodup) (hmem : r ∈ l) :
    l.find? (fun r0 => r0.id == r.id) = some r := by
  induction l with
  | nil => cases hmem
  | cons h t ih =>
    simp only [List.map_cons, List.nodup_cons, List.mem_map] at hnodup
    rcases List.mem_cons.mp hmem with heq | hmemt
    · subst heq
      simp [List.find?]
    · have hne : (h.id == r.id) = false := by
        simp only [beq_eq_false_iff_ne, ne_eq]
        intro hid
        exact hnodup.1 ⟨r, hmemt, hid.symm⟩
      rw [List.find?_cons_of_neg _ (by simp [hne]), ih hnodup.2 hmemt]

/-- Claim C7: `GetLabelRulesByIDs` returns exactly the label rules whose
IDs are present in the engine, silently omitting unknown IDs; a query of
only missing IDs returns an empty result and never an error. -/
theorem c7_label_rules_by_ids (s : LabelerState) (ids : List String)
    (hnodup : (s.labelRules.map (fun r0 => r0.id)).Nodup) :
    (∀ r, r ∈ getLabelRulesByIDs s ids ↔ (r ∈ s.labelRules ∧ r.id ∈ ids)) ∧
    ((∀ i ∈ ids, ∀ r ∈ s.labelRules, r.id ≠ i) → getLabelRulesByIDs s ids = []) := by
  constructor
  · intro r
    unfold getLabelRulesByIDs
    rw [List.mem_filterMap]
    constructor
    · rintro ⟨i, hi, hfind⟩
      have hmem := List.mem_of_find?_eq_some hfind
      have hpred := List.find?_some hfind
      simp only [beq_iff_eq] at hpred
      exact ⟨hmem, hpred ▸ hi⟩
    · rintro ⟨hmem, hid⟩
      exact ⟨r.id, hid, find?_labelRule_eq_some hnodup hmem⟩
  · intro hmiss
    unfold getLabelRulesByIDs
    rw [List.filterMap_eq_nil_iff]
    intro i hi
    rw [List.find?_eq_none]
    intro r hr
    simp only [beq_iff_eq]
    exact hmiss i hi r hr

/-- Witness for C7 at a concrete input: the initial label state, queried
with only a missing ID, returns an empty result. -/
theorem c7_witness :
    (∀ r, r ∈ getLabelRulesByIDs initLabelerState ["missing-id"] ↔
      (r ∈ initLabelerState.labelRules ∧ r.id ∈ ["missing-id"])) ∧
    ((∀ i ∈ ["missing-id"], ∀ r ∈ initLabelerState.labelRules, r.id ≠ i) →
      getLabelRulesByIDs initLabelerState ["missing-id"] = []) :=
  c7_label_rules_by_ids initLabelerState ["missing-id"] (by decide)

theorem mem_upsertLabelRule_of_ne {rules : List LabelRule} {r x : LabelRule}
    (hx : x ∈ rules) (hne : x.id ≠ r.id) : x ∈ upsertLabelRule rules r := by
  unfold upsertLabelRule
  refine List.mem_append_left _ ?_
  rw [List.mem_filter]
  exact ⟨hx, by simp [hne]⟩

theorem mem_upsertLabelRule_self (rules : List LabelRule) (r : LabelRule) :
    r ∈ upsertLabelRule rules r := by
  unfold upsertLabelRule
  exact List.mem_append_right _ (List.mem_singleton_self r)

theorem mem_foldl_upsert_of_ne {sets : List LabelRule} :
    ∀ {base : List LabelRule} {x : LabelRule}, x ∈ base → (∀ r' ∈ sets, x.id ≠ r'.id) →
      x ∈ sets.foldl upsertLabelRule base := by
  induction sets with
  | nil => intro base x hx _; simpa using hx
  | cons a as ih =>
    intro base x hx hne
    simp only [List.foldl_cons]
    exact ih (mem_upsertLabelRule_of_ne hx (hne a (List.mem_cons_self a as)))
      (fun r' hr' => hne r' (List.mem_cons_of_mem a hr'))

theorem mem_foldl_upsert_sets {sets : List LabelRule}
    (hnodup : (sets.map (fun r0 => r0.id)).Nodup) :
    ∀ (base : List LabelRule), ∀ r ∈ sets, r ∈ sets.foldl upsertLabelRule base := by
  induction sets with
  | nil => intro base r hr; cases hr
  | cons a as ih =>
    simp only [List.map_cons, List.nodup_cons, List.mem_map] at hnodup
    intro base r hr
    simp only [List.foldl_cons]
    rcases List.mem_cons.mp hr with heq | hmemt
    · subst heq
      refine mem_foldl_upsert_of_ne (mem_upsertLabelRule_self base r) ?_
      intro r' hr' heq
      exact hnodup.1 ⟨r', hr', heq.symm⟩
    · exact ih hnodup.2 _ r hmemt

/-- Claim C1: for rules `r1` (group `Index=1, Override=false`, Voter,
Count=3) and `r2` (group `Index=2, Override=true`, Voter, Count=1) with
overlapping ranges, `FitRegion` on a region lying inside the overlap with
exactly one peer matching `r2` reports that peer as satisfying `r2`'s
requirement, and `r1` contributes no requirement there: the override
group's rules evict the intersecting coverage accumulated from the other
group, so the merged rule set covering the region is exactly `[r2]`. -/
theorem c1_override_masks
    (storeLabels : Nat → List (String × String))
    (g1 g2 : RuleGroup) (r1 r2 : Rule) (region : RegionInfo) (p : Peer)
    (hg1i : g1.index = 1) (hg1o : g1.override = false)
    (hg2i : g2.index = 2) (hg2o : g2.override = true)
    (hr1role : r1.role = PeerRole.voter) (hr1c : r1.count = 3)
    (hr2role : r2.role = PeerRole.voter) (hr2c : r2.count = 1)
    (hint : rangesIntersect r1.startKey r1.endKey r2.startKey r2.endKey = true)
    (hreg : rangesIntersect r2.startKey r2.endKey region.startKey region.endKey = true)
    (hpeers : region.peers = [p])
    (hmatch : peerMatchesRule storeLabels r2 p = true) :
    applicableRules [⟨g1, [r1]⟩, ⟨g2, [r2]⟩] region = [r2] ∧
    fitRegion storeLabels [⟨g1, [r1]⟩, ⟨g2, [r2]⟩] region = ⟨[r2], [], []⟩ := by
  have happ : applicableRules [⟨g1, [r1]⟩, ⟨g2, [r2]⟩] region = [r2] := by
    unfold applicableRules mergeGroups sortBundles
    simp only [List.foldr_cons, List.foldr_nil, insertBundleSorted, bundlePriorityLE,
      hg1i, hg2i]
    norm_num
    simp only [List.foldl_cons, List.foldl_nil, applyGroupRules, hg1o, hg2o, if_false, if_true,
      Bool.false_eq_true, List.nil_append, List.filter_cons, hint, Bool.not_true,
      List.filter_nil, hreg]
  refine ⟨happ, ?_⟩
  unfold fitRegion
  rw [happ, hpeers]
  unfold fitRules
  simp only [List.filter_cons, hmatch, if_true, List.filter_nil, hr2c]
  norm_num
  simp only [selectPeers, pickBestPeer, List.foldl_cons, List.foldl_nil]
  simp only [List.length_cons, List.length_nil, Nat.zero_add, beq_self_eq_true, if_true]
  simp only [removePeers, List.foldl_cons, List.foldl_nil, List.erase_cons_head]
  rfl

/-- Witness for C1 at a concrete input: `r1` covers `[[1], [6])`, `r2`
covers `[[4], [8])`, the region is `[[4], [6])` with a single voter peer. -/
theorem c1_witness :
    rangesIntersect [1] [6] [4] [8] = true ∧
    rangesIntersect [4] [8] [4] [6] = true ∧
    peerMatchesRule (fun _ => []) ⟨"g2", "r2", [4], [8], .voter, 1, [], ""⟩ ⟨1, .voter⟩ = true ∧
    applicableRules
      [⟨⟨"g1", 1, false⟩, [⟨"g1", "r1", [1], [6], .voter, 3, [], ""⟩]⟩,
       ⟨⟨"g2", 2, true⟩, [⟨"g2", "r2", [4], [8], .voter, 1, [], ""⟩]⟩]
      ⟨[4], [6], [⟨1, .voter⟩]⟩ = [⟨"g2", "r2", [4], [8], .voter, 1, [], ""⟩] ∧
    fitRegion (fun _ => [])
      [⟨⟨"g1", 1, false⟩, [⟨"g1", "r1", [1], [6], .voter, 3, [], ""⟩]⟩,
       ⟨⟨"g2", 2, true⟩, [⟨"g2", "r2", [4], [8], .voter, 1, [], ""⟩]⟩]
      ⟨[4], [6], [⟨1, .voter⟩]⟩ = ⟨[⟨"g2", "r2", [4], [8], .voter, 1, [], ""⟩], [], []⟩ := by
  refine ⟨by decide, by decide, by decide, ?_, ?_⟩ <;>
  · have h := c1_override_masks (fun _ => []) ⟨"g1", 1, false⟩ ⟨"g2", 2, true⟩
      ⟨"g1", "r1", [1], [6], .voter, 3, [], ""⟩ ⟨"g2", "r2", [4], [8], .voter, 1, [], ""⟩
      ⟨[4], [6], [⟨1, .voter⟩]⟩ ⟨1, .voter⟩
      rfl rfl rfl rfl rfl rfl rfl rfl (by decide) (by decide) rfl (by decide)
    first
    | exact h.1
    | exact h.2

theorem filter_flatMap_bundles {B : List GroupBundle}
    (hnodup : (B.map (fun b => b.group.id)).Nodup)
    (hgid : ∀ b ∈ B, ∀ r ∈ b.rules, r.groupID = b.group.id) :
    ∀ b ∈ B, (B.flatMap (fun b0 => b0.rules)).filter
      (fun r => r.groupID == b.group.id) = b.rules := by
  induction B with
  | nil => intro b hb; cases hb
  | cons c T ih =>
    simp only [List.map_cons, List.nodup_cons, List.mem_map] at hnodup
    intro b hb
    rw [List.flatMap_cons, List.filter_append]
    rcases List.mem_cons.mp hb with heq | hmemT
    · subst heq
      have h1 : b.rules.filter (fun r => r.groupID == b.group.id) = b.rules := by
        rw [List.filter_eq_self]
        intro r hr
        simp [hgid b (List.mem_cons_self b T) r hr]
      have h2 : (T.flatMap (fun b0 => b0.rules)).filter
          (fun r => r.groupID == b.group.id) = [] := by
        rw [List.filter_eq_nil_iff]
        intro r hr
        rcases List.mem_flatMap.mp hr with ⟨b', hb', hrb'⟩
        have := hgid b' (List.mem_cons_of_mem b hb') r hrb'
        simp only [beq_eq_false_iff_ne, ne_eq, Bool.not_eq_true, this]
        intro heq
        exact hnodup.1 ⟨b', hb', heq⟩
      rw [h1, h2, List.append_nil]
    · have h1 : c.rules.filter (fun r => r.groupID == b.group.id) = [] := by
        rw [List.filter_eq_nil_iff]
        intro r hr
        have := hgid c (List.mem_cons_self c T) r hr
        simp only [this, beq_eq_false_iff_ne, ne_eq, Bool.not_eq_true]
        intro heq
        exact hnodup.1 ⟨b, hmemT, heq.symm⟩
      rw [h1, List.nil_append]
      exact ih hnodup.2 (fun b' hb' => hgid b' (List.mem_cons_of_mem c hb')) b hmemT

/-- Claim C2: for every valid list of group bundles `B`,
`SetBundles(B, fullReplace=true)` succeeds and a subsequent
`GetAllBundles()` returns exactly `B` — every group and rule present in
`B` is returned unchanged and nothing outside `B` survives. -/
theorem c2_setbundles_roundtrip (s : ManagerState) (B : List GroupBundle)
    (h : validBundles B) :
    setBundles s B true = .ok (bundlesToState B) ∧ getAllBundles (bundlesToState B) = B := by
  constructor
  · unfold setBundles
    rw [if_pos h]
    rfl
  · unfold getAllBundles bundlesToState
    simp only [List.map_map]
    conv_rhs => rw [← List.map_id B]
    refine List.map_congr_left ?_
    intro b hb
    have hrules := filter_flatMap_bundles h.1 (fun b' hb' r hr => (h.2.2 b' hb' r hr).1) b hb
    simp only [Function.comp]
    rw [hrules]
    rfl

/-- Witness for C2 at a concrete input: full replacement by a single valid
bundle for the default group. -/
theorem c2_witness :
    validBundles [⟨⟨"pd", 0, false⟩, [defaultRule]⟩] ∧
    setBundles initManagerState [⟨⟨"pd", 0, false⟩, [defaultRule]⟩] true =
      .ok (bundlesToState [⟨⟨"pd", 0, false⟩, [defaultRule]⟩]) ∧
    getAllBundles (bundlesToState [⟨⟨"pd", 0, false⟩, [defaultRule]⟩]) =
      [⟨⟨"pd", 0, false⟩, [defaultRule]⟩] :=
  ⟨by decide,
    c2_setbundles_roundtrip initManagerState [⟨⟨"pd", 0, false⟩, [defaultRule]⟩] (by decide)⟩

/-- Claim C8: the reserved keyspace-derived label rule is present from
initialization and survives every deletion attempt: `DeleteLabelRule` on
its ID, and listing its ID in the delete set of a `Patch`, are no-ops that
return success and leave the reserved rule present, while the patch's
set-rules still take effect. -/
theorem c8_reserved_label_rule_survives (s : LabelerState) (sets : List LabelRule)
    (dels : List String)
    (hpres : keyspaceLabelRule ∈ s.labelRules)
    (hnr : ∀ r ∈ sets, isReservedLabelRuleID r.id = false)
    (hnd : (sets.map (fun r0 => r0.id)).Nodup) :
    keyspaceLabelRule ∈ initLabelerState.labelRules ∧
    deleteLabelRule s keyspaceLabelRule.id = .ok s ∧
    keyspaceLabelRule ∈ (patchLabelRules s sets dels).labelRules ∧
    ∀ r ∈ sets, r ∈ (patchLabelRules s sets dels).labelRules := by
  refine ⟨by decide, ?_, ?_, ?_⟩
  · unfold deleteLabelRule
    rw [if_pos (by decide)]
  · unfold patchLabelRules
    refine mem_foldl_upsert_of_ne ?_ ?_
    · rw [List.mem_filter]
      refine ⟨hpres, ?_⟩
      have : isReservedLabelRuleID keyspaceLabelRule.id = true := by decide
      simp [this]
    · intro r' hr' heq
      have h1 := hnr r' hr'
      rw [← heq] at h1
      have h2 : isReservedLabelRuleID keyspaceLabelRule.id = true := by decide
      rw [h1] at h2
      exact Bool.false_ne_true h2
  · intro r hr
    unfold patchLabelRules
    exact mem_foldl_upsert_sets hnd _ r hr

/-- Witness for C8 at a concrete input: patching the initial label state
with a new rule `rule2` while listing the reserved ID for deletion. -/
theorem c8_witness :
    keyspaceLabelRule ∈ initLabelerState.labelRules ∧
    deleteLabelRule initLabelerState keyspaceLabelRule.id = .ok initLabelerState ∧
    keyspaceLabelRule ∈
      (patchLabelRules initLabelerState [⟨"rule2", [⟨"k2", "v2"⟩], "key-range", [([1], [2])]⟩]
        ["keyspaces/0"]).labelRules ∧
    ∀ r ∈ [(⟨"rule2", [⟨"k2", "v2"⟩], "key-range", [([1], [2])]⟩ : LabelRule)],
      r ∈ (patchLabelRules initLabelerState
        [⟨"rule2", [⟨"k2", "v2"⟩], "key-range", [([1], [2])]⟩] ["keyspaces/0"]).labelRules :=
  c8_reserved_label_rule_survives initLabelerState
    [⟨"rule2", [⟨"k2", "v2"⟩], "key-range", [([1], [2])]⟩] ["keyspaces/0"]
    (by decide) (by decide) (by decide)

/-- Claim C10: for a durable store satisfying the `LoadRange` contract
(sorted ascending keys, at most `limit` pairs per call, starting at
`start`), the pagination loop of `loadRangeByPrefix` terminates within
`st.length + 1` batches and invokes its callback exactly once for every
stored pair whose key has the prefix, with the prefix stripped; it
advances the next start key to the last returned key plus a zero byte and
stops at the first batch shorter than `MinKVRangeLimit`. -/
theorem c10_loadRangeByPrefix_complete (st : List (Key × String)) (pfx endk : Key)
    (hs : st.Pairwise (fun a b => keyLt a.1 b.1 = true))
    (hend : ∀ kv ∈ st, pfx.isPrefixOf kv.1 = (keyLe pfx kv.1 && keyLt kv.1 endk)) :
    loadRangeByPrefixScan st pfx endk =
      (st.filter (fun kv => pfx.isPrefixOf kv.1)).map
        (fun kv => (kv.1.drop pfx.length, kv.2)) := by
  unfold loadRangeByPrefixScan
  have hfuel : (st.filter (fun kv => keyLe pfx kv.1 && keyLt kv.1 endk)).length <
      (st.length + 1) * MinKVRangeLimit := by
    have h1 := List.length_filter_le (fun kv => keyLe pfx kv.1 && keyLt kv.1 endk) st
    have h2 : 0 < MinKVRangeLimit := by simp [MinKVRangeLimit]
    calc (st.filter (fun kv => keyLe pfx kv.1 && keyLt kv.1 endk)).length
        ≤ st.length := h1
      _ < st.length + 1 := Nat.lt_succ_self _
      _ ≤ (st.length + 1) * MinKVRangeLimit := Nat.le_mul_of_pos_right _ h2
  rw [loadPagesFrom_eq hs endk (st.length + 1) pfx hfuel]
  rw [List.filter_congr hend]

/-- Witness for C10 at a concrete input: a sorted three-entry store in
which exactly the first two keys carry the prefix `[1]`. -/
theorem c10_witness :
    List.Pairwise (fun a b : Key × String => keyLt a.1 b.1 = true)
      [([1, 5], "a"), ([1, 7], "b"), ([3], "c")] ∧
    (∀ kv ∈ [(([1, 5] : Key), "a"), ([1, 7], "b"), ([3], "c")],
      ([1] : Key).isPrefixOf kv.1 = (keyLe [1] kv.1 && keyLt kv.1 [2])) ∧
    loadRangeByPrefixScan [([1, 5], "a"), ([1, 7], "b"), ([3], "c")] [1] [2] =
      (([([1, 5], "a"), ([1, 7], "b"), ([3], "c")] : List (Key × String)).filter
        (fun kv => ([1] : Key).isPrefixOf kv.1)).map
          (fun kv => (kv.1.drop ([1] : Key).length, kv.2)) :=
  ⟨by decide, by decide,
    c10_loadRangeByPrefix_complete [([1, 5], "a"), ([1, 7], "b"), ([3], "c")] [1] [2]
      (by decide) (by decide)⟩

/-- Witness for C5 at a concrete input: the initial engine state has no
group `test-group` and no rule `(pd, test)`. -/
theorem c5_witness :
    getRuleGroup initManagerState "test-group" = .error .notFound ∧
    deleteRuleSingle initManagerState "pd" "test" = .error .notFound ∧
    applyRuleOps initManagerState [⟨⟨"pd", "test", [], [], .voter, 3, [], ""⟩, .del⟩] =
      .ok initManagerState :=
  c5_notfound_single_vs_bulk_skip initManagerState "test-group"
    ⟨"pd", "test", [], [], .voter, 3, [], ""⟩ (by decide) (by decide)

end PDVerify
